import Mathlib

open Matrix

noncomputable section

/-!
Verification of the QR-decomposition expander
(`tensorflow/compiler/xla/service/qr_expander.cc`).

The expander emits a static-shape data-flow graph.  We model the arithmetic
of the emitted graph over `ℝ`, one batch element at a time (every emitted op
acts lane-wise on the batch dimensions, so a single batch element captures
the per-batch-element semantics).  `Select`/mask ops become `if`-expressions
over index comparisons (the `Iota` index tensors become the `Fin`-indices
themselves), reductions and dot products become `Finset` sums, and the
pass-level caching/substitution logic of `ExpandInstruction` becomes explicit
state passing over an association-list cache.
-/

/-! ## The reflector builder `House` (qr_expander.cc lines 78–121)

`House(x, k, batch_dims, m, &v, &tau, &beta)` takes a vector `x` of length
`m` and a pivot index `k`.  The index is dynamic in the graph but always in
range at every call site (the loop counter of `QrBlock` runs over
`[0, min(m, n))`), so it is modelled as `k : Fin m`. -/

/-- Line 92: `alpha = x[k]` (`DynamicSliceInMinorDims(x, ⦃k⦄, ⦃1⦄)` reshaped
to the batch dims). -/
def houseAlpha {m : ℕ} (x : Fin m → ℝ) (k : Fin m) : ℝ := x k

/-- Lines 95–97: `x_after_k`, that is `x` with entries `0 … k` masked to
zero by multiplying with `ConvertElementType(Gt(iota, k))`. -/
def houseXTail {m : ℕ} (x : Fin m → ℝ) (k : Fin m) : Fin m → ℝ :=
  fun i => x i * (if (k : ℕ) < (i : ℕ) then 1 else 0)

/-- Lines 101–102: `sigma = Reduce(x_after_k * x_after_k, 0, add)`, the
masked tail dot product. -/
def houseSigma {m : ℕ} (x : Fin m → ℝ) (k : Fin m) : ℝ :=
  ∑ i, houseXTail x k i * houseXTail x k i

/-- Line 104: `mu = Sqrt(Square(alpha) + sigma)`. -/
def houseMu {m : ℕ} (x : Fin m → ℝ) (k : Fin m) : ℝ :=
  Real.sqrt (houseAlpha x k * houseAlpha x k + houseSigma x k)

/-- Line 108: `beta = Select(sigma_is_zero, alpha,
Select(Lt(alpha, 0), 1, -1) * mu)`. -/
def houseBeta {m : ℕ} (x : Fin m → ℝ) (k : Fin m) : ℝ :=
  if houseSigma x k = 0 then houseAlpha x k
  else (if houseAlpha x k < 0 then 1 else -1) * houseMu x k

/-- Lines 109–110: `tau = Select(sigma_is_zero, 0, (beta - alpha) / beta)`. -/
def houseTau {m : ℕ} (x : Fin m → ℝ) (k : Fin m) : ℝ :=
  if houseSigma x k = 0 then 0
  else (houseBeta x k - houseAlpha x k) / houseBeta x k

/-- Lines 111–112: the guarded divisor
`Select(sigma_is_zero, 1, alpha - beta)`. -/
def houseDivisor {m : ℕ} (x : Fin m → ℝ) (k : Fin m) : ℝ :=
  if houseSigma x k = 0 then 1 else houseAlpha x k - houseBeta x k

/-- Lines 114–115: the unit vector `e_k`, built as the mask `Eq(iota, k)`. -/
def houseEk {m : ℕ} (k : Fin m) : Fin m → ℝ :=
  fun i => if (i : ℕ) = (k : ℕ) then 1 else 0

/-- Line 119: `v = e_k + Div(x_after_k, divisor)`. -/
def houseV {m : ℕ} (x : Fin m → ℝ) (k : Fin m) : Fin m → ℝ :=
  fun i => houseEk k i + houseXTail x k i / houseDivisor x k

/-! ## The unblocked panel factorizer `QrBlock` (lines 147–246)

One batch element: the work tensor is an `m × n` matrix.  The loop body
`qr_body_fn` (lines 170–233) is modelled per entry; the loop counter `j` is
dynamic in the graph, so the body takes `j : ℕ` and is the identity outside
the static trip range (the guard mirrors the static trip count
`min(m, n)` of `ForEachIndex`, line 239). -/

/-- Line 176: `x = DynamicSliceInMinorDims(a, ⦃j⦄, ⦃1⦄)`, column `j` of the
work matrix, collapsed to a vector. -/
def qrCol {m n : ℕ} (a : Matrix (Fin m) (Fin n) ℝ) (jn : Fin n) : Fin m → ℝ :=
  fun i => a i jn

/-- Lines 176–217, the work-matrix part of one `qr_body_fn` iteration:

* lines 193–197: `vva = v ⬝ (vᵀ ⬝ Select(Lt(j, iota_mn), a, 0))` and
  `a ← a - tau * vva` (the mask keeps the columns strictly right of `j`);
* lines 201–216: `new_x = x * Lt(iota, j) + beta * Eq(iota, j) +
  Select(Gt(iota, j), v, 0)`, broadcast over columns;
* line 217: `a ← Select(Eq(iota_mn, j), new_x, a)` (column `j` replaced). -/
def qrBodyA {m n : ℕ} (a : Matrix (Fin m) (Fin n) ℝ) (j : ℕ) :
    Matrix (Fin m) (Fin n) ℝ :=
  if h : j < m ∧ j < n then
    fun i l =>
      if (l : ℕ) = j then
        qrCol a ⟨j, h.2⟩ i * (if (i : ℕ) < j then 1 else 0)
          + houseBeta (qrCol a ⟨j, h.2⟩) ⟨j, h.1⟩ * (if (i : ℕ) = j then 1 else 0)
          + (if j < (i : ℕ) then houseV (qrCol a ⟨j, h.2⟩) ⟨j, h.1⟩ i else 0)
      else
        a i l - houseTau (qrCol a ⟨j, h.2⟩) ⟨j, h.1⟩
            * (houseV (qrCol a ⟨j, h.2⟩) ⟨j, h.1⟩ i
               * ∑ r, houseV (qrCol a ⟨j, h.2⟩) ⟨j, h.1⟩ r
                   * (if j < (l : ℕ) then a r l else 0))
  else a

/-- Lines 219–231, the `taus` part of one `qr_body_fn` iteration:
`taus ← taus + Select(Eq(iota_n, j), 0 + tau, 0)` (within the driver the
panel satisfies `n ≤ m`, so the packed length `min(m, n)` matches the
`iota_n` length `n`). -/
def qrBodyTaus {m n : ℕ} (a : Matrix (Fin m) (Fin n) ℝ)
    (taus : Fin (min m n) → ℝ) (j : ℕ) : Fin (min m n) → ℝ :=
  if h : j < m ∧ j < n then
    fun l => taus l
      + (if (l : ℕ) = j then 0 + houseTau (qrCol a ⟨j, h.2⟩) ⟨j, h.1⟩ else 0)
  else taus

/-- The `ForEachIndex` loop of `QrBlock` (line 239) run for a given number
of iterations, starting from the work matrix `a` and a `taus` vector. -/
def qrBlockIter {m n : ℕ} (a : Matrix (Fin m) (Fin n) ℝ)
    (taus : Fin (min m n) → ℝ) :
    ℕ → Matrix (Fin m) (Fin n) ℝ × (Fin (min m n) → ℝ)
  | 0 => (a, taus)
  | j + 1 =>
      (qrBodyA (qrBlockIter a taus j).1 j,
       qrBodyTaus (qrBlockIter a taus j).1 (qrBlockIter a taus j).2 j)

/-- `QrBlock` (lines 147–246): `taus` starts as zeros (line 235) and the
loop runs for `min(m, n)` iterations (line 239). -/
def qrBlock {m n : ℕ} (a : Matrix (Fin m) (Fin n) ℝ) :
    Matrix (Fin m) (Fin n) ℝ × (Fin (min m n) → ℝ) :=
  qrBlockIter a (fun _ => 0) (min m n)

/-! ## The Compact-WY builder `CompactWYRepresentation` (lines 264–304)

`vs` is the panel `Y` of shape `m × k` and `taus` the packed reflector
scalars.  The loop state is the `k × k` matrix `t`. -/

/-- Lines 290–299: `vtv = (strict_upper(Yᵀ ⬝ Y) + I) * (-taus)` with the
per-column scale broadcast along rows.  `TriangleMask(vtv, 0)` keeps
`i ≥ j`, so the `Select` zeroes everything except the strict upper
triangle; the identity is then added and the elementwise product with
`tau_scale[i, j] = -taus[j]` is taken. -/
def wyU {m k : ℕ} (vs : Matrix (Fin m) (Fin k) ℝ) (taus : Fin k → ℝ) :
    Matrix (Fin k) (Fin k) ℝ :=
  fun i j =>
    ((if (i : ℕ) < (j : ℕ) then ∑ r, vs r i * vs r j else 0)
        + (if i = j then 1 else 0)) * (-taus j)

/-- Lines 273–288, the loop body `body_fn`: slice column `j` of `vtv`
(`yv`), compute `z = t ⬝ yv` (`BatchDot`) and write it back as column `j`
of `t` (`DynamicUpdateSliceInMinorDims`). -/
def wyUpdate {k : ℕ} (t u : Matrix (Fin k) (Fin k) ℝ) (j : Fin k) :
    Matrix (Fin k) (Fin k) ℝ :=
  fun i l => if l = j then ∑ r, t i r * u r j else t i l

/-- The `ForEachIndex(n, ...)` loop of line 302 run for a given number of
iterations; the state starts at the identity matrix (lines 293–294). -/
def wyIter {k : ℕ} (u : Matrix (Fin k) (Fin k) ℝ) :
    ℕ → Matrix (Fin k) (Fin k) ℝ
  | 0 => fun i l => if i = l then 1 else 0
  | j + 1 => if h : j < k then wyUpdate (wyIter u j) u ⟨j, h⟩ else wyIter u j

/-- `CompactWYRepresentation` (lines 264–304): the loop runs for all `k`
column indices `0, 1, …, k-1`. -/
def compactWY {m k : ℕ} (vs : Matrix (Fin m) (Fin k) ℝ) (taus : Fin k → ℝ) :
    Matrix (Fin k) (Fin k) ℝ :=
  wyIter (wyU vs taus) k

/-- The elementary Householder reflector `H_j = I - taus[j] * v_j * v_jᵀ`
encoded by column `j` of the panel (comment at lines 49–50 and 248–249). -/
def houseH {m k : ℕ} (vs : Matrix (Fin m) (Fin k) ℝ) (taus : Fin k → ℝ)
    (j : Fin k) : Matrix (Fin m) (Fin m) ℝ :=
  fun p q => (if p = q then 1 else 0) - taus j * vs p j * vs q j

/-- The ordered product `H_0 * H_1 * … * H_{j-1}` of the elementary
reflectors encoded by `(vs, taus)`. -/
def houseProd {m k : ℕ} (vs : Matrix (Fin m) (Fin k) ℝ) (taus : Fin k → ℝ) :
    ℕ → Matrix (Fin m) (Fin m) ℝ
  | 0 => 1
  | j + 1 =>
      if h : j < k then houseProd vs taus j * houseH vs taus ⟨j, h⟩
      else houseProd vs taus j

/-- The already-written part of the loop state: columns `≥ j` (still
identity columns at step `j`) are dropped. -/
def wyPartial {m k : ℕ} (vs : Matrix (Fin m) (Fin k) ℝ) (taus : Fin k → ℝ)
    (j : ℕ) : Matrix (Fin k) (Fin k) ℝ :=
  fun p q => if (q : ℕ) < j then wyIter (wyU vs taus) j p q else 0

/-- Modelled from the spec (§4.3 step 3), for comparison with the code: the
loop state starts at `diag(-taus)` and the fixed-trip-count loop runs over
`j ∈ [1, k)` only, replacing column `j` by `T ⬝ U[:, j]`; column `0` is
never written by the loop.  `U` is the code's own `wyU`. -/
def specWyIter {k : ℕ} (u : Matrix (Fin k) (Fin k) ℝ) (taus : Fin k → ℝ) :
    ℕ → Matrix (Fin k) (Fin k) ℝ
  | 0 => fun i l => if i = l then -taus l else 0
  | j + 1 =>
      if h : j + 1 < k then wyUpdate (specWyIter u taus j) u ⟨j + 1, h⟩
      else specWyIter u taus j

/-- Modelled from the spec: the Compact-WY recipe as the spec words it —
`T₀ = diag(-taus)` followed by the column updates for `j = 1, …, k-1`. -/
def specCompactWY {m k : ℕ} (vs : Matrix (Fin m) (Fin k) ℝ)
    (taus : Fin k → ℝ) : Matrix (Fin k) (Fin k) ℝ :=
  specWyIter (wyU vs taus) taus (k - 1)

end

/-! ## Pass-level expansion (lines 386–432)

`ExpandInstruction` keys a cache of previously emitted sub-programs by the
string rendering of the operand's shape, builds the sub-program through
`BuildQrDecomposition` on a miss, and replaces the matched custom-op node by
a call to the cached computation.  The mutable member `computation_cache_`
becomes explicit state passing: the function returns the updated cache next
to its `StatusOr` result.  The element type of the modelled shapes is the
single floating type, so a shape is its list of dimension sizes; the body of
the emitted sub-program is the graph whose per-batch-element semantics are
the functions above, identified here by the inputs that determine it
(operand shape, block size, precision). -/

/-- The matmul precision levels of `PrecisionConfig`. -/
inductive Precision where
  | DEFAULT : Precision
  | HIGH : Precision
  | HIGHEST : Precision
deriving DecidableEq

/-- String rendering of a shape (`Shape::ToString`): the dimension sizes,
comma-separated in brackets. -/
def shapeString (dims : List ℕ) : String :=
  "[" ++ String.intercalate "," (dims.map toString) ++ "]"

/-- The identity of an emitted QR sub-program: the data that determine the
graph `BuildQrDecomposition` emits (lines 319–384). -/
structure QrComputation where
  dims : List ℕ
  blockSize : ℤ
  precision : Precision
deriving DecidableEq

/-- The failure kind this file's code creates (`InvalidArgument`, lines
324–326 and 334–336). -/
inductive QrError where
  | invalidArgument : String → QrError
deriving DecidableEq

/-- `BuildQrDecomposition` (lines 319–384): reject rank `< 2` (line 324),
then reject `block_size < 1` (line 334); otherwise emit the blocked QR
graph for this shape, block size and precision. -/
def buildQrDecomposition (dims : List ℕ) (blockSize : ℤ)
    (precision : Precision) : Except QrError QrComputation :=
  if dims.length < 2 then
    .error (.invalidArgument
      ("Arguments to QR must have rank >= 2: got shape " ++ shapeString dims))
  else if blockSize < 1 then
    .error (.invalidArgument "block_size argument to QR must be >= 1")
  else
    .ok ⟨dims, blockSize, precision⟩

/-- The opcodes the pattern match distinguishes (line 387). -/
inductive HloOpcode where
  | kCustomCall : HloOpcode
  | kOther : HloOpcode
deriving DecidableEq, BEq

/-- A graph node as the expander sees it: opcode, custom-call target, the
single operand's shape, the declared output shape, and the operand ids. -/
structure HloInstr where
  opcode : HloOpcode
  customCallTarget : String
  operandShape : List ℕ
  shape : List ℕ
  operands : List ℕ

/-- `InstructionMatchesPattern` (lines 386–389). -/
def instructionMatchesPattern (instr : HloInstr) : Bool :=
  instr.opcode == HloOpcode.kCustomCall
    && instr.customCallTarget == "QrDecomposition"

/-- The call instruction `HloInstruction::CreateCall(shape, operands,
computation)` built at line 430. -/
structure HloCall where
  shape : List ℕ
  operands : List ℕ
  callee : QrComputation
deriving DecidableEq

/-- The expander's `computation_cache_`: shape-string key to the emitted
computation, `none` standing for the `nullptr` entry `emplace` inserts. -/
def QrCache : Type := List (String × Option QrComputation)

/-- `std::map::find` on the cache. -/
def cacheFind : QrCache → String → Option (Option QrComputation)
  | [], _ => none
  | (key, v) :: rest, name => if key = name then some v else cacheFind rest name

/-- `computation_cache_.emplace(name, nullptr)` (line 399): insert a null
entry when the key is absent, otherwise leave the map unchanged. -/
def cacheEmplaceNull (cache : QrCache) (name : String) : QrCache :=
  if (cacheFind cache name).isSome then cache else (name, none) :: cache

/-- Assignment through the reference `emplace` returned (line 426):
overwrite the entry at `name`. -/
def cacheSet : QrCache → String → QrComputation → QrCache
  | [], _, _ => []
  | (key, v) :: rest, name, c =>
      if key = name then (key, some c) :: rest
      else (key, v) :: cacheSet rest name c

/-- Line 393–394: the cache key
`absl::StrFormat("xla.qr_%s", shape.ToString())`. -/
def qrCacheKey (instr : HloInstr) : String :=
  "xla.qr_" ++ shapeString instr.operandShape

/-- `ExpandInstruction` (lines 391–432): emplace a null cache entry for the
shape key; if the entry is still null, build the sub-program with
`block_size = 128` and `HIGHEST` precision (lines 414–416), recording it in
the cache on success and propagating the error (cache entry left null)
otherwise; finally add a call to the computation on the original operands
with the instruction's declared shape. -/
def expandInstruction (cache : QrCache) (instr : HloInstr) :
    QrCache × Except QrError HloCall :=
  let name := qrCacheKey instr
  let cache1 := cacheEmplaceNull cache name
  match cacheFind cache1 name with
  | some (some c) => (cache1, .ok ⟨instr.shape, instr.operands, c⟩)
  | _ =>
      match buildQrDecomposition instr.operandShape 128 Precision.HIGHEST with
      | .error e => (cache1, .error e)
      | .ok c => (cacheSet cache1 name c, .ok ⟨instr.shape, instr.operands, c⟩)

/-- Whether a `StatusOr` result is a failure. -/
def exceptIsError {ε α : Type} : Except ε α → Bool
  | .error _ => true
  | .ok _ => false

/-! ## Properties -/

lemma houseSigma_nonneg {m : ℕ} (x : Fin m → ℝ) (k : Fin m) :
    0 ≤ houseSigma x k :=
  Finset.sum_nonneg fun _ _ => mul_self_nonneg _

lemma houseXTail_eq_zero {m : ℕ} (x : Fin m → ℝ) (k : Fin m)
    (h : houseSigma x k = 0) (i : Fin m) : houseXTail x k i = 0 := by
  have h2 := (Finset.sum_eq_zero_iff_of_nonneg
    (fun i _ => mul_self_nonneg (houseXTail x k i))).1 h i (Finset.mem_univ i)
  exact mul_self_eq_zero.1 h2

lemma abs_houseAlpha_lt_houseMu {m : ℕ} (x : Fin m → ℝ) (k : Fin m)
    (h : houseSigma x k ≠ 0) : |houseAlpha x k| < houseMu x k := by
  have hσ : 0 < houseSigma x k := lt_of_le_of_ne (houseSigma_nonneg x k) (Ne.symm h)
  have h1 : houseAlpha x k * houseAlpha x k
      < houseAlpha x k * houseAlpha x k + houseSigma x k := by linarith
  calc |houseAlpha x k| = Real.sqrt (houseAlpha x k * houseAlpha x k) := by
        rw [Real.sqrt_mul_self_eq_abs]
    _ < houseMu x k := Real.sqrt_lt_sqrt (mul_self_nonneg _) h1

lemma houseMu_pos {m : ℕ} (x : Fin m → ℝ) (k : Fin m)
    (h : houseSigma x k ≠ 0) : 0 < houseMu x k :=
  lt_of_le_of_lt (abs_nonneg _) (abs_houseAlpha_lt_houseMu x k h)

lemma houseBeta_neg_of_nonneg {m : ℕ} (x : Fin m → ℝ) (k : Fin m)
    (h : houseSigma x k ≠ 0) (ha : 0 ≤ houseAlpha x k) : houseBeta x k < 0 := by
  rw [houseBeta, if_neg h, if_neg (not_lt.2 ha)]
  have := houseMu_pos x k h
  nlinarith

lemma houseBeta_pos_of_neg {m : ℕ} (x : Fin m → ℝ) (k : Fin m)
    (h : houseSigma x k ≠ 0) (ha : houseAlpha x k < 0) : 0 < houseBeta x k := by
  rw [houseBeta, if_neg h, if_pos ha, one_mul]
  exact houseMu_pos x k h

lemma houseDivisor_ne_zero {m : ℕ} (x : Fin m → ℝ) (k : Fin m) :
    houseDivisor x k ≠ 0 := by
  rw [houseDivisor]
  by_cases h : houseSigma x k = 0
  · rw [if_pos h]; norm_num
  · rw [if_neg h]
    rcases lt_or_le (houseAlpha x k) 0 with ha | ha
    · have := houseBeta_pos_of_neg x k h ha
      intro hc; nlinarith
    · have := houseBeta_neg_of_nonneg x k h ha
      intro hc; nlinarith

/-- C1.  In the nondegenerate case `sigma ≠ 0`, `House` returns
`beta = -sign(alpha) * mu` with `mu = sqrt(alpha² + sigma)` where the
multiplier of `mu` is `+1` exactly when `alpha < 0` (sign of `0` treated as
`+1`), `tau = (beta - alpha) / beta`, and `v` with `v[k] = 1`, `v[i] = 0`
for `i < k` and `v[i] = x[i] / (alpha - beta)` for `i > k`. -/
theorem house_nondegenerate {m : ℕ} (x : Fin m → ℝ) (k : Fin m)
    (hσ : houseSigma x k ≠ 0) :
    houseBeta x k = (if houseAlpha x k < 0 then 1 else -1)
        * Real.sqrt (houseAlpha x k ^ 2 + houseSigma x k)
    ∧ houseTau x k = (houseBeta x k - houseAlpha x k) / houseBeta x k
    ∧ houseV x k k = 1
    ∧ (∀ i : Fin m, (i : ℕ) < (k : ℕ) → houseV x k i = 0)
    ∧ (∀ i : Fin m, (k : ℕ) < (i : ℕ) →
        houseV x k i = x i / (houseAlpha x k - houseBeta x k)) := by
  refine ⟨?_, ?_, ?_, ?_, ?_⟩
  · rw [houseBeta, if_neg hσ, houseMu, pow_two]
  · rw [houseTau, if_neg hσ]
  · rw [houseV, houseEk, houseXTail, if_pos rfl, if_neg (lt_irrefl (k : ℕ))]
    simp
  · intro i hi
    rw [houseV, houseEk, houseXTail, if_neg (Nat.ne_of_lt hi),
      if_neg (by omega : ¬ (k : ℕ) < (i : ℕ))]
    simp
  · intro i hi
    rw [houseV, houseEk, houseXTail, if_neg (by omega : ¬ (i : ℕ) = (k : ℕ)),
      if_pos hi, houseDivisor, if_neg hσ]
    ring

/-- Witness for C1 at `x = (3, 4)`, `k = 0`. -/
theorem house_nondegenerate_holds :
    houseBeta ![(3 : ℝ), 4] 0 = (if houseAlpha ![(3 : ℝ), 4] 0 < 0 then 1 else -1)
      * Real.sqrt (houseAlpha ![(3 : ℝ), 4] 0 ^ 2 + houseSigma ![(3 : ℝ), 4] 0) :=
  (house_nondegenerate ![(3 : ℝ), 4] 0 (by
    norm_num [houseSigma, houseXTail, Fin.sum_univ_two])).1

/-- C5.  In the degenerate case `sigma = 0` (all-zero masked tail), `House`
returns `beta = alpha`, `tau = 0` and `v = e_k`, and the emitted division is
guarded: the divisor is selected to `1` in the `sigma = 0` case, equals
`alpha - beta` when `sigma ≠ 0`, and is nonzero on every lane, so the
emitted `Div` never divides by zero. -/
theorem house_degenerate {m : ℕ} (x : Fin m → ℝ) (k : Fin m)
    (hσ : houseSigma x k = 0) :
    houseBeta x k = houseAlpha x k
    ∧ houseTau x k = 0
    ∧ houseV x k = houseEk k
    ∧ houseDivisor x k = 1
    ∧ (∀ (y : Fin m → ℝ) (l : Fin m), houseSigma y l ≠ 0 →
        houseDivisor y l = houseAlpha y l - houseBeta y l)
    ∧ (∀ (y : Fin m → ℝ) (l : Fin m), houseDivisor y l ≠ 0) := by
  refine ⟨?_, ?_, ?_, ?_, ?_, ?_⟩
  · rw [houseBeta, if_pos hσ]
  · rw [houseTau, if_pos hσ]
  · funext i
    rw [houseV, houseXTail_eq_zero x k hσ i, zero_div, add_zero]
  · rw [houseDivisor, if_pos hσ]
  · intro y l hy; rw [houseDivisor, if_neg hy]
  · intro y l; exact houseDivisor_ne_zero y l

/-- Witness for C5 at `x = (5)`, `k = 0`. -/
theorem house_degenerate_holds :
    houseV ![(5 : ℝ)] 0 = houseEk 0 :=
  (house_degenerate ![(5 : ℝ)] 0 (by
    norm_num [houseSigma, houseXTail, Fin.sum_univ_one])).2.2.1

lemma qrBodyA_diag {m n : ℕ} (a : Matrix (Fin m) (Fin n) ℝ) (j : ℕ)
    (hm : j < m) (hn : j < n) :
    qrBodyA a j ⟨j, hm⟩ ⟨j, hn⟩ = houseBeta (qrCol a ⟨j, hn⟩) ⟨j, hm⟩ := by
  rw [qrBodyA, dif_pos (And.intro hm hn)]
  simp

/-- Columns strictly left of the loop index are untouched by one body
iteration: the `Lt(j, iota_mn)` mask zeroes them inside `vva`, and the
column-`j` overwrite does not reach them. -/
lemma qrBodyA_left_frozen {m n : ℕ} (a : Matrix (Fin m) (Fin n) ℝ) (j : ℕ)
    (i : Fin m) (l : Fin n) (hl : (l : ℕ) < j) : qrBodyA a j i l = a i l := by
  rw [qrBodyA]
  split
  · simp only []
    rw [if_neg (Nat.ne_of_lt hl)]
    have hz : ∀ r : Fin m, houseV (qrCol a ⟨j, ‹j < m ∧ j < n›.2⟩) ⟨j, ‹j < m ∧ j < n›.1⟩ r
        * (if j < (l : ℕ) then a r l else 0) = 0 := by
      intro r; rw [if_neg (by omega : ¬ j < (l : ℕ))]; ring
    rw [Finset.sum_congr rfl (fun r _ => hz r), Finset.sum_const_zero]
    ring
  · rfl

/-- Once written, a column of the work matrix is stable under all later
iterations of the panel loop. -/
lemma qrBlockIter_col_stable {m n : ℕ} (a : Matrix (Fin m) (Fin n) ℝ)
    (taus : Fin (min m n) → ℝ) (i : Fin m) (l : Fin n) :
    ∀ jj s, (l : ℕ) < s → s ≤ jj →
      (qrBlockIter a taus jj).1 i l = (qrBlockIter a taus s).1 i l := by
  intro jj
  induction jj with
  | zero =>
      intro s _ hs
      have hs0 : s = 0 := Nat.le_zero.mp hs
      rw [hs0]
  | succ jj ih =>
      intro s hls hs
      rcases Nat.eq_or_lt_of_le hs with h | h
      · rw [h]
      · have hsjj : s ≤ jj := by omega
        have hlj : (l : ℕ) < jj := by omega
        show (qrBodyA (qrBlockIter a taus jj).1 jj) i l = _
        rw [qrBodyA_left_frozen _ jj i l hlj]
        exact ih s hls hsjj

/-- C6.  One iteration `j` of the unblocked panel loop equals the reference
step: outside column `j` the body applies the reflector update
`A - tau * v * (vᵀ * M_j(A))` where `M_j` masks columns `≤ j` to zero;
column `j` is overwritten so rows `< j` keep their values, row `j` becomes
`beta` and rows `> j` become the reflector tail `v`; and `tau` is scattered
into position `j` of the packed `taus` vector (zero while being filled)
leaving the other entries unchanged. -/
theorem qr_body_step {m n : ℕ} (a : Matrix (Fin m) (Fin n) ℝ)
    (taus : Fin (min m n) → ℝ) (j : ℕ) (hm : j < m) (hn : j < n)
    (h0 : taus ⟨j, lt_min hm hn⟩ = 0) :
    (∀ (i : Fin m) (l : Fin n), (l : ℕ) ≠ j → qrBodyA a j i l
        = a i l - houseTau (qrCol a ⟨j, hn⟩) ⟨j, hm⟩
            * houseV (qrCol a ⟨j, hn⟩) ⟨j, hm⟩ i
            * ∑ r, houseV (qrCol a ⟨j, hn⟩) ⟨j, hm⟩ r
                * (if (l : ℕ) ≤ j then 0 else a r l))
    ∧ (∀ i : Fin m, (i : ℕ) < j → qrBodyA a j i ⟨j, hn⟩ = a i ⟨j, hn⟩)
    ∧ qrBodyA a j ⟨j, hm⟩ ⟨j, hn⟩ = houseBeta (qrCol a ⟨j, hn⟩) ⟨j, hm⟩
    ∧ (∀ i : Fin m, j < (i : ℕ) →
        qrBodyA a j i ⟨j, hn⟩ = houseV (qrCol a ⟨j, hn⟩) ⟨j, hm⟩ i)
    ∧ qrBodyTaus a taus j ⟨j, lt_min hm hn⟩
        = houseTau (qrCol a ⟨j, hn⟩) ⟨j, hm⟩
    ∧ (∀ l : Fin (min m n), (l : ℕ) ≠ j → qrBodyTaus a taus j l = taus l) := by
  have hmn : j < m ∧ j < n := ⟨hm, hn⟩
  have h1 : ((⟨j, hn⟩ : Fin n) : ℕ) = j := rfl
  have h2 : ((⟨j, lt_min hm hn⟩ : Fin (min m n)) : ℕ) = j := rfl
  refine ⟨?_, ?_, ?_, ?_, ?_, ?_⟩
  · intro i l hl
    rw [qrBodyA, dif_pos hmn]
    rw [if_neg hl]
    have hmask : ∀ r : Fin m,
        houseV (qrCol a ⟨j, hn⟩) ⟨j, hm⟩ r * (if j < (l : ℕ) then a r l else 0)
        = houseV (qrCol a ⟨j, hn⟩) ⟨j, hm⟩ r * (if (l : ℕ) ≤ j then 0 else a r l) := by
      intro r
      rcases lt_or_le j (l : ℕ) with h | h
      · rw [if_pos h, if_neg (by omega)]
      · rw [if_neg (by omega), if_pos h]
    rw [Finset.sum_congr rfl (fun r _ => hmask r)]
    ring
  · intro i hi
    rw [qrBodyA, dif_pos hmn]
    simp only [h1, qrCol, eq_self_iff_true, if_true]
    rw [if_pos hi, if_neg (Nat.ne_of_lt hi),
      if_neg (by omega : ¬ j < (i : ℕ))]
    ring
  · exact qrBodyA_diag a j hm hn
  · intro i hi
    rw [qrBodyA, dif_pos hmn]
    simp only [h1, qrCol, eq_self_iff_true, if_true]
    rw [if_neg (by omega : ¬ (i : ℕ) < j),
      if_neg (by omega : ¬ (i : ℕ) = j), if_pos hi]
    ring
  · rw [qrBodyTaus, dif_pos hmn]
    simp only [h2, eq_self_iff_true, if_true]
    rw [h0]
    ring
  · intro l hl
    rw [qrBodyTaus, dif_pos hmn]
    rw [if_neg hl]
    ring

/-- Witness for C6 at a concrete `2 × 2` matrix, `j = 0`: the diagonal of
the processed column is overwritten with `beta`. -/
theorem qr_body_step_holds :
    qrBodyA ![![(1 : ℝ), 2], ![3, 4]] 0 ⟨0, by omega⟩ ⟨0, by omega⟩
      = houseBeta (qrCol ![![(1 : ℝ), 2], ![3, 4]] ⟨0, by omega⟩) ⟨0, by omega⟩ :=
  (qr_body_step ![![(1 : ℝ), 2], ![3, 4]] (fun _ => 0) 0
    (by omega) (by omega) rfl).2.2.1

/-- The diagonal entry of the final work matrix at pivot `j` is the `beta`
produced by `House` at step `j` (column `j` is written at step `j` and kept
by all later steps). -/
lemma qrBlock_diag_beta {m n : ℕ} (a : Matrix (Fin m) (Fin n) ℝ) (j : ℕ)
    (hm : j < m) (hn : j < n) :
    (qrBlock a).1 ⟨j, hm⟩ ⟨j, hn⟩
      = houseBeta (qrCol (qrBlockIter a (fun _ => 0) j).1 ⟨j, hn⟩) ⟨j, hm⟩ := by
  have hjmin : j < min m n := lt_min hm hn
  have hstab := qrBlockIter_col_stable a (fun _ => 0) ⟨j, hm⟩ ⟨j, hn⟩
    (min m n) (j + 1) (Nat.lt_succ_self j) hjmin
  rw [qrBlock, hstab]
  show (qrBodyA (qrBlockIter a (fun _ => 0) j).1 j) ⟨j, hm⟩ ⟨j, hn⟩ = _
  exact qrBodyA_diag _ j hm hn

/-- C4 (amended).  `R[j,j]` is the `beta` of step `j`.  When the masked tail
at step `j` is nonzero (`sigma ≠ 0`), `R[j,j]` has sign strictly opposite to
the pre-reflection `alpha` (sign of `alpha = 0` treated as `+1`, so then
`R[j,j] < 0`); when `sigma = 0`, `R[j,j] = alpha` — in particular `R[j,j]`
is zero exactly when `alpha = 0` in that degenerate case, but it keeps the
sign of `alpha` rather than the opposite sign when `alpha ≠ 0`. -/
theorem qr_r_diag_sign {m n : ℕ} (a : Matrix (Fin m) (Fin n) ℝ) (j : ℕ)
    (hm : j < m) (hn : j < n) :
    (houseSigma (qrCol (qrBlockIter a (fun _ => 0) j).1 ⟨j, hn⟩) ⟨j, hm⟩ ≠ 0 →
        (0 ≤ houseAlpha (qrCol (qrBlockIter a (fun _ => 0) j).1 ⟨j, hn⟩) ⟨j, hm⟩ →
          (qrBlock a).1 ⟨j, hm⟩ ⟨j, hn⟩ < 0)
        ∧ (houseAlpha (qrCol (qrBlockIter a (fun _ => 0) j).1 ⟨j, hn⟩) ⟨j, hm⟩ < 0 →
          0 < (qrBlock a).1 ⟨j, hm⟩ ⟨j, hn⟩))
    ∧ (houseSigma (qrCol (qrBlockIter a (fun _ => 0) j).1 ⟨j, hn⟩) ⟨j, hm⟩ = 0 →
        (qrBlock a).1 ⟨j, hm⟩ ⟨j, hn⟩
          = houseAlpha (qrCol (qrBlockIter a (fun _ => 0) j).1 ⟨j, hn⟩) ⟨j, hm⟩) := by
  rw [qrBlock_diag_beta a j hm hn]
  constructor
  · intro hσ
    exact ⟨houseBeta_neg_of_nonneg _ _ hσ, houseBeta_pos_of_neg _ _ hσ⟩
  · intro hσ
    rw [houseBeta, if_pos hσ]

/-- Witness for C4 (amended) at `A = [[2]]`: the tail is empty, so
`R[0,0] = alpha = 2`. -/
theorem qr_r_diag_sign_holds :
    (qrBlock ![![(2 : ℝ)]]).1 ⟨0, by omega⟩ ⟨0, by omega⟩
      = houseAlpha (qrCol (qrBlockIter ![![(2 : ℝ)]] (fun _ => 0) 0).1
          ⟨0, by omega⟩) ⟨0, by omega⟩ :=
  (qr_r_diag_sign ![![(2 : ℝ)]] 0 (by omega) (by omega)).2 (by
    norm_num [qrBlockIter, qrCol, houseSigma, houseXTail, Fin.sum_univ_one])

/-- C4 counterexample: for `A = [[1]]`, the pre-reflection `alpha` at step
`0` is `1` and the emitted `R[0,0]` is `1` as well — it neither has the
opposite sign to `alpha` nor is zero, and the claimed zero case
(`alpha = 0` with zero tail) does not apply since `alpha = 1 ≠ 0`. -/
theorem qr_r_diag_sign_cex :
    (qrBlock ![![(1 : ℝ)]]).1 0 0 = 1
    ∧ houseAlpha (qrCol (qrBlockIter ![![(1 : ℝ)]] (fun _ => 0) 0).1 0) 0 = 1
    ∧ ¬ ((qrBlock ![![(1 : ℝ)]]).1 0 0 < 0 ∨ (qrBlock ![![(1 : ℝ)]]).1 0 0 = 0) := by
  have hval : (qrBlock ![![(1 : ℝ)]]).1 0 0 = 1 := by
    norm_num [qrBlock, qrBlockIter, qrBodyA, qrCol, houseBeta, houseSigma,
      houseXTail, houseAlpha, Fin.sum_univ_one]
  refine ⟨hval, ?_, ?_⟩
  · norm_num [qrBlockIter, qrCol, houseAlpha]
  · rw [hval]; norm_num

/-- Columns the loop has not reached yet still hold the identity. -/
lemma wyIter_id_col {k : ℕ} (u : Matrix (Fin k) (Fin k) ℝ) :
    ∀ (j : ℕ) (p q : Fin k), j ≤ (q : ℕ) →
      wyIter u j p q = if p = q then 1 else 0 := by
  intro j
  induction j with
  | zero => intro p q _; rfl
  | succ j ih =>
      intro p q hq
      rw [wyIter]
      split
      · rw [wyUpdate]
        rw [if_neg (by
          intro hqj
          rw [hqj] at hq
          simp at hq)]
        exact ih p q (by omega)
      · exact ih p q (by omega)

/-- Entries of `U` at or below the diagonal row index larger than the
column index vanish: `U[i, j] = 0` for `i > j`. -/
lemma wyU_lower {m k : ℕ} (vs : Matrix (Fin m) (Fin k) ℝ) (taus : Fin k → ℝ)
    (i j : Fin k) (hji : (j : ℕ) < (i : ℕ)) : wyU vs taus i j = 0 := by
  rw [wyU, if_neg (by omega : ¬ (i : ℕ) < (j : ℕ)),
    if_neg (by intro h; rw [h] at hji; omega)]
  ring

/-- Strictly-lower entries of the loop state are zero at every iteration:
upper-triangularity is an invariant of the Compact-WY loop. -/
lemma wyIter_lower {m k : ℕ} (vs : Matrix (Fin m) (Fin k) ℝ)
    (taus : Fin k → ℝ) :
    ∀ (j : ℕ) (p q : Fin k), (q : ℕ) < (p : ℕ) →
      wyIter (wyU vs taus) j p q = 0 := by
  intro j
  induction j with
  | zero =>
      intro p q hqp
      show (if p = q then (1 : ℝ) else 0) = 0
      rw [if_neg (by intro h; rw [h] at hqp; omega)]
  | succ j ih =>
      intro p q hqp
      rw [wyIter]
      split
      · rw [wyUpdate]
        split
        · next hqj =>
            apply Finset.sum_eq_zero
            intro r _
            rcases lt_or_le (r : ℕ) ((q : ℕ) + 1) with hr | hr
            · have : (r : ℕ) < (p : ℕ) := by
                have : (q : ℕ) = j := by rw [hqj]
                omega
              rw [ih p r this]
              ring
            · rw [wyU_lower vs taus r ⟨j, ‹j < k›⟩ (by
                have : (q : ℕ) = j := by rw [hqj]
                simp only []
                omega)]
              ring
        · exact ih p q hqp
      · exact ih p q hqp

/-- Columns already written are stable under later loop iterations. -/
lemma wyIter_stable {k : ℕ} (u : Matrix (Fin k) (Fin k) ℝ) (p l : Fin k) :
    ∀ jj s, (l : ℕ) < s → s ≤ jj → wyIter u jj p l = wyIter u s p l := by
  intro jj
  induction jj with
  | zero =>
      intro s _ hs
      have hs0 : s = 0 := Nat.le_zero.mp hs
      rw [hs0]
  | succ jj ih =>
      intro s hls hs
      rcases Nat.eq_or_lt_of_le hs with h | h
      · rw [h]
      · have hsjj : s ≤ jj := by omega
        rw [wyIter]
        split
        · rw [wyUpdate]
          rw [if_neg (by
            intro hlj
            rw [hlj] at hls
            simp only [] at hls
            omega)]
          exact ih s hls hsjj
        · exact ih s hls hsjj

lemma sum_mul_sum_right {α β : Type} [Fintype α] [Fintype β]
    (a : α → ℝ) (b : α → β → ℝ) (c : β → ℝ) :
    ∑ r, a r * ∑ t, b r t * c t = ∑ t, (∑ r, a r * b r t) * c t := by
  simp_rw [Finset.mul_sum]
  rw [Finset.sum_comm]
  refine Finset.sum_congr rfl fun t _ => ?_
  rw [Finset.sum_mul]
  exact Finset.sum_congr rfl fun r _ => by ring

lemma wyPartial_succ {m k : ℕ} (vs : Matrix (Fin m) (Fin k) ℝ)
    (taus : Fin k → ℝ) (j : ℕ) (h : j < k) (r s : Fin k) :
    wyPartial vs taus (j + 1) r s
      = wyPartial vs taus j r s
        + (if s = ⟨j, h⟩
            then ∑ t, wyIter (wyU vs taus) j r t * wyU vs taus t ⟨j, h⟩
            else 0) := by
  rw [wyPartial, wyPartial, wyIter, dif_pos h, wyUpdate]
  by_cases hs : s = ⟨j, h⟩
  · have hsj : (s : ℕ) = j := by rw [hs]
    rw [if_pos (by omega : (s : ℕ) < j + 1), if_pos hs, if_pos hs,
      if_neg (by omega : ¬ (s : ℕ) < j)]
    ring
  · have hsj : (s : ℕ) ≠ j := by
      intro hc
      exact hs (Fin.ext hc)
    rw [if_neg hs, if_neg hs]
    by_cases hlt : (s : ℕ) < j
    · rw [if_pos (by omega : (s : ℕ) < j + 1), if_pos hlt]
      ring
    · rw [if_neg (by omega : ¬ (s : ℕ) < j + 1), if_neg hlt]
      ring

/-- The column the loop writes at step `j`, in terms of the previously
written columns: `z = t ⬝ U[:, j]` expands to
`-taus[j] * (t_partial ⬝ (Yᵀ Y)[:, j] + e_j)`. -/
lemma wyColumn_formula {m k : ℕ} (vs : Matrix (Fin m) (Fin k) ℝ)
    (taus : Fin k → ℝ) (j : ℕ) (h : j < k) (r : Fin k) :
    ∑ t, wyIter (wyU vs taus) j r t * wyU vs taus t ⟨j, h⟩
      = -taus ⟨j, h⟩
        * ((∑ t, wyPartial vs taus j r t * ∑ d, vs d t * vs d ⟨j, h⟩)
            + (if r = ⟨j, h⟩ then 1 else 0)) := by
  have hval : ((⟨j, h⟩ : Fin k) : ℕ) = j := rfl
  calc ∑ t, wyIter (wyU vs taus) j r t * wyU vs taus t ⟨j, h⟩
      = ∑ t, -taus ⟨j, h⟩ * (wyIter (wyU vs taus) j r t
          * ((if (t : ℕ) < j then ∑ d, vs d t * vs d ⟨j, h⟩ else 0)
             + (if t = ⟨j, h⟩ then 1 else 0))) := by
        refine Finset.sum_congr rfl fun t _ => ?_
        rw [wyU]
        simp only [hval]
        ring
    _ = -taus ⟨j, h⟩ * ∑ t, (wyIter (wyU vs taus) j r t
          * ((if (t : ℕ) < j then ∑ d, vs d t * vs d ⟨j, h⟩ else 0)
             + (if t = ⟨j, h⟩ then 1 else 0))) := by
        rw [Finset.mul_sum]
    _ = -taus ⟨j, h⟩
        * ((∑ t, wyPartial vs taus j r t * ∑ d, vs d t * vs d ⟨j, h⟩)
            + (if r = ⟨j, h⟩ then 1 else 0)) := by
        congr 1
        rw [Finset.sum_congr rfl fun t _ =>
          mul_add (wyIter (wyU vs taus) j r t) _ _]
        rw [Finset.sum_add_distrib]
        congr 1
        · refine Finset.sum_congr rfl fun t _ => ?_
          rw [wyPartial]
          by_cases ht : (t : ℕ) < j
          · rw [if_pos ht, if_pos ht]
          · rw [if_neg ht, if_neg ht]
            ring
        · simp only [mul_ite, mul_one, mul_zero, Finset.sum_ite_eq',
            Finset.mem_univ, if_true]
          exact wyIter_id_col (wyU vs taus) j r ⟨j, h⟩ (le_of_eq hval.symm)

/-- The Schreiber–Van Loan loop invariant: after the first `j` columns of
`T` are written, `I + Y ⬝ T_partial ⬝ Yᵀ` equals the ordered product of the
first `j` reflectors. -/
lemma wy_invariant {m k : ℕ} (vs : Matrix (Fin m) (Fin k) ℝ)
    (taus : Fin k → ℝ) :
    ∀ j, j ≤ k → ∀ p q : Fin m,
      houseProd vs taus j p q
        = (if p = q then (1 : ℝ) else 0)
          + ∑ s, (∑ r, vs p r * wyPartial vs taus j r s) * vs q s := by
  intro j
  induction j with
  | zero =>
      intro _ p q
      have hz : ∀ s r : Fin k, wyPartial vs taus 0 r s = 0 := by
        intro s r
        rw [wyPartial, if_neg (by omega)]
      show (1 : Matrix (Fin m) (Fin m) ℝ) p q = _
      rw [Matrix.one_apply]
      simp [hz]
  | succ j ih =>
      intro hj p q
      have h : j < k := Nat.lt_of_succ_le hj
      have hval : ((⟨j, h⟩ : Fin k) : ℕ) = j := rfl
      have IH := ih (Nat.le_of_succ_le_succ (Nat.le_succ_of_le hj))
      have hA : ∀ s : Fin k, (∑ r, vs p r * wyPartial vs taus (j + 1) r s)
          = (∑ r, vs p r * wyPartial vs taus j r s)
            + (if s = ⟨j, h⟩ then
                ∑ r, vs p r * ∑ t, wyIter (wyU vs taus) j r t * wyU vs taus t ⟨j, h⟩
               else 0) := by
        intro s
        calc ∑ r, vs p r * wyPartial vs taus (j + 1) r s
            = ∑ r, (vs p r * wyPartial vs taus j r s
                + vs p r * (if s = ⟨j, h⟩ then
                    ∑ t, wyIter (wyU vs taus) j r t * wyU vs taus t ⟨j, h⟩ else 0)) := by
              refine Finset.sum_congr rfl fun r _ => ?_
              rw [wyPartial_succ vs taus j h r s, mul_add]
          _ = (∑ r, vs p r * wyPartial vs taus j r s)
                + ∑ r, vs p r * (if s = ⟨j, h⟩ then
                    ∑ t, wyIter (wyU vs taus) j r t * wyU vs taus t ⟨j, h⟩ else 0) := by
              rw [Finset.sum_add_distrib]
          _ = (∑ r, vs p r * wyPartial vs taus j r s)
                + (if s = ⟨j, h⟩ then
                    ∑ r, vs p r * ∑ t, wyIter (wyU vs taus) j r t * wyU vs taus t ⟨j, h⟩
                   else 0) := by
              congr 1
              by_cases hs : s = ⟨j, h⟩
              · simp only [if_pos hs]
              · simp only [if_neg hs, mul_zero, Finset.sum_const_zero]
      have hC : (∑ r, vs p r * ∑ t, wyIter (wyU vs taus) j r t * wyU vs taus t ⟨j, h⟩)
          = -taus ⟨j, h⟩ * ∑ d, houseProd vs taus j p d * vs d ⟨j, h⟩ := by
        calc ∑ r, vs p r * ∑ t, wyIter (wyU vs taus) j r t * wyU vs taus t ⟨j, h⟩
            = ∑ r, vs p r * (-taus ⟨j, h⟩
                * ((∑ t, wyPartial vs taus j r t * ∑ d, vs d t * vs d ⟨j, h⟩)
                    + (if r = ⟨j, h⟩ then 1 else 0))) := by
              refine Finset.sum_congr rfl fun r _ => ?_
              rw [wyColumn_formula vs taus j h r]
          _ = -taus ⟨j, h⟩
                * ((∑ r, vs p r * ∑ t, wyPartial vs taus j r t * ∑ d, vs d t * vs d ⟨j, h⟩)
                    + ∑ r, vs p r * (if r = ⟨j, h⟩ then 1 else 0)) := by
              conv_rhs => rw [mul_add, Finset.mul_sum, Finset.mul_sum]
              rw [← Finset.sum_add_distrib]
              refine Finset.sum_congr rfl fun r _ => ?_
              ring
          _ = -taus ⟨j, h⟩
                * ((∑ d, (∑ t, (∑ r, vs p r * wyPartial vs taus j r t) * vs d t)
                      * vs d ⟨j, h⟩)
                    + vs p ⟨j, h⟩) := by
              congr 1
              congr 1
              · rw [sum_mul_sum_right (fun r => vs p r)
                  (fun r t => wyPartial vs taus j r t)
                  (fun t => ∑ d, vs d t * vs d ⟨j, h⟩)]
                rw [sum_mul_sum_right
                  (fun t => ∑ r, vs p r * wyPartial vs taus j r t)
                  (fun t d => vs d t) (fun d => vs d ⟨j, h⟩)]
              · simp only [mul_ite, mul_one, mul_zero, Finset.sum_ite_eq',
                  Finset.mem_univ, if_true]
          _ = -taus ⟨j, h⟩ * ∑ d, houseProd vs taus j p d * vs d ⟨j, h⟩ := by
              congr 1
              have hexp : (∑ d, houseProd vs taus j p d * vs d ⟨j, h⟩)
                  = ∑ d, ((if p = d then (1 : ℝ) else 0) * vs d ⟨j, h⟩
                      + (∑ t, (∑ r, vs p r * wyPartial vs taus j r t) * vs d t)
                        * vs d ⟨j, h⟩) := by
                refine Finset.sum_congr rfl fun d _ => ?_
                rw [IH p d, add_mul]
              have hδ : (∑ d, (if p = d then (1 : ℝ) else 0) * vs d ⟨j, h⟩)
                  = vs p ⟨j, h⟩ := by
                simp [ite_mul, zero_mul, one_mul]
              rw [hexp, Finset.sum_add_distrib, hδ]
              ring
      have hgoal : houseProd vs taus (j + 1) p q
          = houseProd vs taus j p q
            + (-taus ⟨j, h⟩ * ∑ d, houseProd vs taus j p d * vs d ⟨j, h⟩)
              * vs q ⟨j, h⟩ := by
        rw [houseProd, dif_pos h, Matrix.mul_apply]
        calc ∑ d, houseProd vs taus j p d * houseH vs taus ⟨j, h⟩ d q
            = ∑ d, (houseProd vs taus j p d * (if d = q then 1 else 0)
                - taus ⟨j, h⟩ * (houseProd vs taus j p d * vs d ⟨j, h⟩)
                  * vs q ⟨j, h⟩) := by
              refine Finset.sum_congr rfl fun d _ => ?_
              rw [houseH]
              ring
          _ = (∑ d, houseProd vs taus j p d * (if d = q then 1 else 0))
                - ∑ d, taus ⟨j, h⟩ * (houseProd vs taus j p d * vs d ⟨j, h⟩)
                    * vs q ⟨j, h⟩ := by
              rw [Finset.sum_sub_distrib]
          _ = houseProd vs taus j p q
                + (-taus ⟨j, h⟩ * ∑ d, houseProd vs taus j p d * vs d ⟨j, h⟩)
                  * vs q ⟨j, h⟩ := by
              have hfst : (∑ d, houseProd vs taus j p d * (if d = q then 1 else 0))
                  = houseProd vs taus j p q := by
                simp [mul_ite, mul_one, mul_zero]
              have hsnd : (∑ d, taus ⟨j, h⟩ * (houseProd vs taus j p d * vs d ⟨j, h⟩)
                    * vs q ⟨j, h⟩)
                  = taus ⟨j, h⟩ * (∑ d, houseProd vs taus j p d * vs d ⟨j, h⟩)
                    * vs q ⟨j, h⟩ := by
                conv_rhs => rw [Finset.mul_sum, Finset.sum_mul]
              rw [hfst, hsnd]
              ring
      have hR : (∑ s, (∑ r, vs p r * wyPartial vs taus (j + 1) r s) * vs q s)
          = (∑ s, (∑ r, vs p r * wyPartial vs taus j r s) * vs q s)
            + (∑ r, vs p r * ∑ t, wyIter (wyU vs taus) j r t * wyU vs taus t ⟨j, h⟩)
              * vs q ⟨j, h⟩ := by
        calc ∑ s, (∑ r, vs p r * wyPartial vs taus (j + 1) r s) * vs q s
            = ∑ s, ((∑ r, vs p r * wyPartial vs taus j r s) * vs q s
                + (if s = ⟨j, h⟩ then
                    ∑ r, vs p r * ∑ t, wyIter (wyU vs taus) j r t * wyU vs taus t ⟨j, h⟩
                   else 0) * vs q s) := by
              refine Finset.sum_congr rfl fun s _ => ?_
              rw [hA s, add_mul]
          _ = (∑ s, (∑ r, vs p r * wyPartial vs taus j r s) * vs q s)
                + ∑ s, (if s = ⟨j, h⟩ then
                    ∑ r, vs p r * ∑ t, wyIter (wyU vs taus) j r t * wyU vs taus t ⟨j, h⟩
                   else 0) * vs q s := by
              rw [Finset.sum_add_distrib]
          _ = (∑ s, (∑ r, vs p r * wyPartial vs taus j r s) * vs q s)
                + (∑ r, vs p r * ∑ t, wyIter (wyU vs taus) j r t * wyU vs taus t ⟨j, h⟩)
                  * vs q ⟨j, h⟩ := by
              congr 1
              simp only [ite_mul, zero_mul, Finset.sum_ite_eq',
                Finset.mem_univ, if_true]
      rw [hgoal, hR, hC]
      have hIHpq := IH p q
      linarith

/-- C2 (amended).  For every panel `(Y, taus)` with unit-diagonal `Y`, the
matrix `T` returned by the Compact-WY builder satisfies
`I + Y ⬝ T ⬝ Yᵀ = H_0 ⬝ H_1 ⬝ … ⬝ H_{k-1}` — with a `+`, not the `-` the
claim states: the builder scales by `-taus`, so the emitted representation
is `I + Y T Yᵀ` (as the block driver's comment at lines 358–359 records). -/
theorem compactWY_reflector_product {m k : ℕ} (vs : Matrix (Fin m) (Fin k) ℝ)
    (taus : Fin k → ℝ)
    (hunit : ∀ (j : Fin k) (hjm : (j : ℕ) < m), vs ⟨(j : ℕ), hjm⟩ j = 1) :
    (1 : Matrix (Fin m) (Fin m) ℝ) + vs * compactWY vs taus * vsᵀ
      = houseProd vs taus k := by
  ext p q
  have hinv := wy_invariant vs taus k le_rfl p q
  have hfull : ∀ r s : Fin k, wyPartial vs taus k r s = compactWY vs taus r s := by
    intro r s
    rw [wyPartial, if_pos s.isLt, compactWY]
  rw [Matrix.add_apply, Matrix.one_apply, hinv]
  congr 1
  rw [Matrix.mul_apply]
  refine Finset.sum_congr rfl fun s _ => ?_
  rw [Matrix.transpose_apply, Matrix.mul_apply]
  congr 1
  exact Finset.sum_congr rfl fun r _ => by rw [hfull r s]

/-- C2 counterexample: for the unit-diagonal panel `Y = [[1]]`,
`taus = (2)`, the builder returns `T = [[-2]]`, and
`I - Y ⬝ T ⬝ Yᵀ = [[3]]` while `H_0 = [[-1]]`: the claimed relation with
the minus sign fails. -/
theorem compactWY_reflector_product_cex :
    ¬ ((1 : Matrix (Fin 1) (Fin 1) ℝ)
          - !![(1 : ℝ)] * compactWY !![(1 : ℝ)] ![(2 : ℝ)] * (!![(1 : ℝ)])ᵀ
        = houseProd !![(1 : ℝ)] ![(2 : ℝ)] 1) := by
  intro hEq
  have hT : compactWY !![(1 : ℝ)] ![(2 : ℝ)] 0 0 = -2 := by
    norm_num [compactWY, wyIter, wyUpdate, wyU, Fin.sum_univ_one]
  have hH : houseProd !![(1 : ℝ)] ![(2 : ℝ)] 1 0 0 = -1 := by
    norm_num [houseProd, houseH, Matrix.one_mul]
  have h00 := congrFun (congrFun hEq 0) 0
  rw [Matrix.sub_apply, Matrix.one_apply, Matrix.mul_apply,
    Fin.sum_univ_one, Matrix.mul_apply, Fin.sum_univ_one,
    Matrix.transpose_apply, hT, hH] at h00
  norm_num at h00

/-- Witness for C2 (amended) at `Y = [[1]]`, `taus = (2)`. -/
theorem compactWY_reflector_product_holds :
    (1 : Matrix (Fin 1) (Fin 1) ℝ)
        + !![(1 : ℝ)] * compactWY !![(1 : ℝ)] ![(2 : ℝ)] * (!![(1 : ℝ)])ᵀ
      = houseProd !![(1 : ℝ)] ![(2 : ℝ)] 1 :=
  compactWY_reflector_product !![(1 : ℝ)] ![(2 : ℝ)] (by
    intro j hjm
    fin_cases j
    norm_num)

/-- C7.  Upper-triangularity is an invariant of the Compact-WY loop: every
entry strictly below the diagonal of the loop state is zero at every
iteration, and in particular the returned `T` is upper triangular. -/
theorem compactWY_upper_triangular {m k : ℕ} (vs : Matrix (Fin m) (Fin k) ℝ)
    (taus : Fin k → ℝ) (j : ℕ) (p q : Fin k) (hqp : (q : ℕ) < (p : ℕ)) :
    wyIter (wyU vs taus) j p q = 0 ∧ compactWY vs taus p q = 0 :=
  ⟨wyIter_lower vs taus j p q hqp, wyIter_lower vs taus k p q hqp⟩

/-- Witness for C7 at the `2 × 2` identity panel, `taus = (1, 1)`, entry
`(1, 0)` after both loop iterations. -/
theorem compactWY_upper_triangular_holds :
    wyIter (wyU ![![(1 : ℝ), 0], ![0, 1]] ![(1 : ℝ), 1]) 2 1 0 = 0
      ∧ compactWY ![![(1 : ℝ), 0], ![0, 1]] ![(1 : ℝ), 1] 1 0 = 0 :=
  compactWY_upper_triangular ![![(1 : ℝ), 0], ![0, 1]] ![(1 : ℝ), 1] 2 1 0
    (by norm_num)

/-- C3 counterexample: for the `2 × 2` identity panel with
`taus = (1, 1)`, the code's loop (state initialized to `I`, running over
`j = 0, 1`) returns `T[1,1] = -1`, while the spec's recipe (state
initialized to `diag(-taus)`, loop over `j = 1` only) yields `T[1,1] = 1`:
the builder does not compute `T` by the claimed recipe. -/
theorem compactWY_recipe_cex :
    compactWY !![(1 : ℝ), 0; 0, 1] ![(1 : ℝ), 1]
      ≠ specCompactWY !![(1 : ℝ), 0; 0, 1] ![(1 : ℝ), 1] := by
  intro hEq
  have h11 := congrFun (congrFun hEq 1) 1
  have hc : compactWY !![(1 : ℝ), 0; 0, 1] ![(1 : ℝ), 1] 1 1 = -1 := by
    norm_num [compactWY, wyIter, wyUpdate, wyU, Fin.sum_univ_two]
  have hs : specCompactWY !![(1 : ℝ), 0; 0, 1] ![(1 : ℝ), 1] 1 1 = 1 := by
    norm_num [specCompactWY, specWyIter, wyUpdate, wyU, Fin.sum_univ_two]
  rw [hc, hs] at h11
  norm_num at h11

/-- C3 (amended).  The Compact-WY builder computes `T` with
`U = -taus[None,:] * (strict_upper_triangle(YᵀY) + I)` as claimed, but the
loop state is initialized to the identity `I` and the fixed-trip-count loop
runs over all `j ∈ [0, k)`, replacing column `j` of `T` by `T ⬝ U[:, j]`;
column `0` is therefore written by the first loop iteration (not by a
`-taus ⬝ I` initialization), which sets it to `-taus₀ ⬝ e₀`, so
`T[0,0] = -taus₀` still holds. -/
theorem compactWY_recipe {m k : ℕ} (vs : Matrix (Fin m) (Fin k) ℝ)
    (taus : Fin k → ℝ) (hk : 0 < k) :
    compactWY vs taus = wyIter (wyU vs taus) k
    ∧ (∀ i : Fin k, compactWY vs taus i ⟨0, hk⟩
        = if i = ⟨0, hk⟩ then -taus ⟨0, hk⟩ else 0)
    ∧ compactWY vs taus ⟨0, hk⟩ ⟨0, hk⟩ = -taus ⟨0, hk⟩ := by
  have hval : ((⟨0, hk⟩ : Fin k) : ℕ) = 0 := rfl
  have hcol : ∀ i : Fin k, compactWY vs taus i ⟨0, hk⟩
      = if i = ⟨0, hk⟩ then -taus ⟨0, hk⟩ else 0 := by
    intro i
    have hstab := wyIter_stable (wyU vs taus) i ⟨0, hk⟩ k 1
      (by omega) hk
    rw [compactWY, hstab, wyIter, dif_pos hk, wyUpdate]
    simp only []
    rw [if_pos trivial]
    show (∑ r, (if i = r then (1 : ℝ) else 0) * wyU vs taus r ⟨0, hk⟩) = _
    simp only [ite_mul, one_mul, zero_mul, Finset.sum_ite_eq,
      Finset.mem_univ, if_true]
    rw [wyU]
    simp only [hval]
    rw [if_neg (Nat.not_lt_zero _)]
    by_cases hi : i = ⟨0, hk⟩
    · rw [if_pos hi, if_pos hi]
      ring
    · rw [if_neg hi, if_neg hi]
      ring
  exact ⟨rfl, hcol, by rw [hcol ⟨0, hk⟩, if_pos rfl]⟩

/-- Witness for C3 (amended) at `Y = [[1]]`, `taus = (5)`. -/
theorem compactWY_recipe_holds :
    compactWY !![(1 : ℝ)] ![(5 : ℝ)] ⟨0, Nat.one_pos⟩ ⟨0, Nat.one_pos⟩
      = -(![(5 : ℝ)] ⟨0, Nat.one_pos⟩) :=
  (compactWY_recipe !![(1 : ℝ)] ![(5 : ℝ)] Nat.one_pos).2.2

lemma cacheFind_emplaceNull (cache : QrCache) (name : String) :
    cacheFind (cacheEmplaceNull cache name) name
      = some ((cacheFind cache name).getD none) := by
  rw [cacheEmplaceNull]
  cases h : cacheFind cache name with
  | none => simp [cacheFind]
  | some v => simp [h]

lemma cacheEmplaceNull_of_isSome (cache : QrCache) (name : String)
    (h : (cacheFind cache name).isSome) :
    cacheEmplaceNull cache name = cache := by
  rw [cacheEmplaceNull, if_pos h]

lemma cacheFind_set (cache : QrCache) (name : String) (c : QrComputation)
    (h : (cacheFind cache name).isSome) :
    cacheFind (cacheSet cache name c) name = some (some c) := by
  induction cache with
  | nil => simp [cacheFind] at h
  | cons hd tl ih =>
      rw [cacheSet]
      by_cases hk : hd.1 = name
      · rw [if_pos hk]
        show (if hd.1 = name then _ else _) = _
        rw [if_pos hk]
      · rw [if_neg hk]
        show (if hd.1 = name then _ else _) = _
        rw [if_neg hk]
        apply ih
        rw [cacheFind, if_neg hk] at h
        exact h

lemma expandInstruction_hit (cache : QrCache) (instr : HloInstr)
    (c : QrComputation)
    (hfind : cacheFind cache (qrCacheKey instr) = some (some c)) :
    expandInstruction cache instr
      = (cache, .ok ⟨instr.shape, instr.operands, c⟩) := by
  have hemp : cacheEmplaceNull cache (qrCacheKey instr) = cache :=
    cacheEmplaceNull_of_isSome _ _ (by rw [hfind]; rfl)
  rw [expandInstruction]
  simp only [hemp, hfind]

lemma expandInstruction_miss_error (cache : QrCache) (instr : HloInstr)
    (e : QrError)
    (hmiss : ∀ c : QrComputation,
      cacheFind cache (qrCacheKey instr) ≠ some (some c))
    (hbuild : buildQrDecomposition instr.operandShape 128 Precision.HIGHEST
      = .error e) :
    expandInstruction cache instr
      = (cacheEmplaceNull cache (qrCacheKey instr), .error e) := by
  have hfind := cacheFind_emplaceNull cache (qrCacheKey instr)
  rw [expandInstruction]
  cases h : cacheFind cache (qrCacheKey instr) with
  | none =>
      rw [h, Option.getD_none] at hfind
      simp only [hfind, hbuild]
  | some v =>
      cases v with
      | none =>
          rw [h, Option.getD_some] at hfind
          simp only [hfind, hbuild]
      | some c => exact absurd h (hmiss c)

lemma expandInstruction_miss_ok (cache : QrCache) (instr : HloInstr)
    (c : QrComputation)
    (hmiss : ∀ c' : QrComputation,
      cacheFind cache (qrCacheKey instr) ≠ some (some c'))
    (hbuild : buildQrDecomposition instr.operandShape 128 Precision.HIGHEST
      = .ok c) :
    expandInstruction cache instr
      = (cacheSet (cacheEmplaceNull cache (qrCacheKey instr)) (qrCacheKey instr) c,
         .ok ⟨instr.shape, instr.operands, c⟩) := by
  have hfind := cacheFind_emplaceNull cache (qrCacheKey instr)
  rw [expandInstruction]
  cases h : cacheFind cache (qrCacheKey instr) with
  | none =>
      rw [h, Option.getD_none] at hfind
      simp only [hfind, hbuild]
  | some v =>
      cases v with
      | none =>
          rw [h, Option.getD_some] at hfind
          simp only [hfind, hbuild]
      | some c' => exact absurd h (hmiss c')

/-- After a cache miss followed by a successful build, the result call
carries the freshly built computation, the cache records it under the shape
key, and the call keeps the instruction's declared shape and operands. -/
lemma expand_after_miss (cache : QrCache) (i1 : HloInstr)
    (hmiss : ∀ c : QrComputation,
      cacheFind cache (qrCacheKey i1) ≠ some (some c))
    (cache1 : QrCache) (c1 : HloCall)
    (h1 : expandInstruction cache i1 = (cache1, .ok c1)) :
    buildQrDecomposition i1.operandShape 128 Precision.HIGHEST = .ok c1.callee
    ∧ cacheFind cache1 (qrCacheKey i1) = some (some c1.callee)
    ∧ c1.shape = i1.shape ∧ c1.operands = i1.operands := by
  cases hbuild : buildQrDecomposition i1.operandShape 128 Precision.HIGHEST with
  | error e =>
      rw [expandInstruction_miss_error cache i1 e hmiss hbuild] at h1
      injection h1 with _ hok
      exact absurd hok (by simp)
  | ok c =>
      rw [expandInstruction_miss_ok cache i1 c hmiss hbuild] at h1
      injection h1 with hcache hok
      injection hok with hcall
      refine ⟨by rw [← hcall], ?_, by rw [← hcall], by rw [← hcall]⟩
      rw [← hcall, ← hcache]
      show cacheFind (cacheSet (cacheEmplaceNull cache (qrCacheKey i1))
        (qrCacheKey i1) c) (qrCacheKey i1) = some (some c)
      apply cacheFind_set
      rw [cacheFind_emplaceNull]
      rfl

/-- C8.  The block driver fails with an invalid-argument error exactly when
the input shape has rank `< 2` or the block size is `< 1`; the failure
propagates out of `ExpandInstruction` (the error is returned before any
call instruction is created, so the matched node is left unmodified). -/
theorem build_qr_invalid_argument (dims : List ℕ) (bs : ℤ) (prec : Precision) :
    (exceptIsError (buildQrDecomposition dims bs prec) = true
      ↔ (dims.length < 2 ∨ bs < 1))
    ∧ (∀ (cache : QrCache) (instr : HloInstr),
        instr.operandShape.length < 2 →
        (∀ c : QrComputation,
          cacheFind cache (qrCacheKey instr) ≠ some (some c)) →
        expandInstruction cache instr
          = (cacheEmplaceNull cache (qrCacheKey instr),
             .error (.invalidArgument
               ("Arguments to QR must have rank >= 2: got shape "
                 ++ shapeString instr.operandShape)))) := by
  constructor
  · rw [buildQrDecomposition]
    split_ifs with h1 h2
    · simp [exceptIsError, h1]
    · simp [exceptIsError, h2]
    · simp [exceptIsError, h1, h2]
  · intro cache instr hrank hmiss
    apply expandInstruction_miss_error cache instr _ hmiss
    rw [buildQrDecomposition, if_pos hrank]

/-- C9.  Matched nodes whose operand shapes render to the same string share
one sub-program: a successful expansion caches the computation it built
with block size `128` and `HIGHEST` precision under the shape-string key,
and a later expansion of a node with the same shape string reuses exactly
that computation — the cache is unchanged and the new call is emitted on
the second node's own operands with its declared shape. -/
theorem expand_instruction_caching (cache cache1 : QrCache)
    (i1 i2 : HloInstr) (c1 : HloCall)
    (hm1 : instructionMatchesPattern i1 = true)
    (hm2 : instructionMatchesPattern i2 = true)
    (hshape : shapeString i1.operandShape = shapeString i2.operandShape)
    (h1 : expandInstruction cache i1 = (cache1, .ok c1)) :
    c1.shape = i1.shape ∧ c1.operands = i1.operands
    ∧ expandInstruction cache1 i2
        = (cache1, .ok ⟨i2.shape, i2.operands, c1.callee⟩)
    ∧ ((∀ c : QrComputation,
          cacheFind cache (qrCacheKey i1) ≠ some (some c)) →
        buildQrDecomposition i1.operandShape 128 Precision.HIGHEST
          = .ok c1.callee) := by
  have hkey : qrCacheKey i1 = qrCacheKey i2 := by
    rw [qrCacheKey, qrCacheKey, hshape]
  by_cases hhit : ∃ c : QrComputation,
      cacheFind cache (qrCacheKey i1) = some (some c)
  · obtain ⟨c, hfind⟩ := hhit
    rw [expandInstruction_hit cache i1 c hfind] at h1
    injection h1 with hcache hok
    injection hok with hcall
    refine ⟨by rw [← hcall], by rw [← hcall], ?_, ?_⟩
    · rw [expandInstruction_hit cache1 i2 c
        (by rw [← hkey, ← hcache]; exact hfind), ← hcall]
    · intro hmiss
      exact absurd hfind (hmiss c)
  · push_neg at hhit
    obtain ⟨hbuild, hfind1, hshape1, hops1⟩ :=
      expand_after_miss cache i1 hhit cache1 c1 h1
    refine ⟨hshape1, hops1, ?_, fun _ => hbuild⟩
    rw [expandInstruction_hit cache1 i2 c1.callee (by rw [← hkey]; exact hfind1)]

/-- C10.  When the build fails inside `ExpandInstruction`, the result is
the error and the cache entry inserted before the build stays null — no
computation is recorded — so a later expansion for the same shape string
attempts the construction again (running the build once more, with the
same deterministic outcome) instead of reusing a failed result or emitting
a call to a null computation. -/
theorem expand_instruction_failed_build (cache : QrCache) (instr : HloInstr)
    (e : QrError)
    (hbuild : buildQrDecomposition instr.operandShape 128 Precision.HIGHEST
      = .error e)
    (hmiss : ∀ c : QrComputation,
      cacheFind cache (qrCacheKey instr) ≠ some (some c)) :
    expandInstruction cache instr
      = (cacheEmplaceNull cache (qrCacheKey instr), .error e)
    ∧ cacheFind (cacheEmplaceNull cache (qrCacheKey instr)) (qrCacheKey instr)
        = some none
    ∧ expandInstruction (cacheEmplaceNull cache (qrCacheKey instr)) instr
        = (cacheEmplaceNull cache (qrCacheKey instr), .error e) := by
  have h2 : cacheFind (cacheEmplaceNull cache (qrCacheKey instr))
      (qrCacheKey instr) = some none := by
    rw [cacheFind_emplaceNull]
    cases hf : cacheFind cache (qrCacheKey instr) with
    | none => rfl
    | some v =>
        cases v with
        | none => rfl
        | some c => exact absurd hf (hmiss c)
  have hmiss2 : ∀ c : QrComputation,
      cacheFind (cacheEmplaceNull cache (qrCacheKey instr)) (qrCacheKey instr)
        ≠ some (some c) := by
    intro c hc
    rw [h2] at hc
    injection hc with hc2
    exact Option.noConfusion hc2
  have hemp2 : cacheEmplaceNull (cacheEmplaceNull cache (qrCacheKey instr))
      (qrCacheKey instr) = cacheEmplaceNull cache (qrCacheKey instr) :=
    cacheEmplaceNull_of_isSome _ _ (by rw [h2]; rfl)
  refine ⟨expandInstruction_miss_error _ _ _ hmiss hbuild, h2, ?_⟩
  have hsecond := expandInstruction_miss_error
    (cacheEmplaceNull cache (qrCacheKey instr)) instr e hmiss2 hbuild
  rw [hsecond, hemp2]

/-- Witness for C9: once the `[3,3]` sub-program is cached, expanding a
matched node with the same operand-shape string returns a call to the
cached computation and leaves the cache unchanged. -/
theorem expand_instruction_caching_holds :
    expandInstruction
        [("xla.qr_[3,3]",
          some (⟨[3, 3], 128, Precision.HIGHEST⟩ : QrComputation))]
        ⟨HloOpcode.kCustomCall, "QrDecomposition", [3, 3], [3, 3], [7]⟩
      = ([("xla.qr_[3,3]",
          some (⟨[3, 3], 128, Precision.HIGHEST⟩ : QrComputation))],
         .ok ⟨[3, 3], [7], ⟨[3, 3], 128, Precision.HIGHEST⟩⟩) :=
  (expand_instruction_caching []
      [("xla.qr_[3,3]",
        some (⟨[3, 3], 128, Precision.HIGHEST⟩ : QrComputation))]
      ⟨HloOpcode.kCustomCall, "QrDecomposition", [3, 3], [3, 3], [7]⟩
      ⟨HloOpcode.kCustomCall, "QrDecomposition", [3, 3], [3, 3], [7]⟩
      ⟨[3, 3], [7], ⟨[3, 3], 128, Precision.HIGHEST⟩⟩
      rfl rfl rfl rfl).2.2.1

/-- Witness for C10 at a rank-1 operand shape `[3]`: the failed build
leaves the null cache entry in place. -/
theorem expand_instruction_failed_build_holds :
    cacheFind
        (cacheEmplaceNull []
          (qrCacheKey ⟨HloOpcode.kCustomCall, "QrDecomposition", [3], [3, 3], [7]⟩))
        (qrCacheKey ⟨HloOpcode.kCustomCall, "QrDecomposition", [3], [3, 3], [7]⟩)
      = some none :=
  (expand_instruction_failed_build []
      ⟨HloOpcode.kCustomCall, "QrDecomposition", [3], [3, 3], [7]⟩
      (.invalidArgument "Arguments to QR must have rank >= 2: got shape [3]")
      rfl (fun c hc => Option.noConfusion hc)).2.1
